import Mathlib

/-!
Shallow embedding of the request-routing core of `librestd`
(`src/http_server.cpp`): compilation of path templates with named
`:name(expr)` parameter tokens, route matching via an unanchored
regular-expression search with capture groups, first-match dispatch over
the route table, and the per-connection consume cycle.

Machine regular expressions (`std::regex` with ECMAScript grammar and
`icase`) are embedded as a small abstract syntax tree together with an
executable backtracking matcher that returns all match outcomes in
backtracking priority order; `regex_search` is the unanchored search that
tries every start position left to right and takes the first (leftmost,
greedy) outcome.
-/

namespace Restd

/-- Capture bindings of one match outcome: group index paired with the
consumed characters.  Later (shadowing) bindings come first. -/
abbrev Caps := List (Nat × List Char)

/-- Abstract syntax of the regular-expression subset used by the routing
engine: literal characters, `.`, character classes (possibly negated,
items are closed ranges), concatenation, alternation, Kleene star and
numbered capture groups.  `+` and `?` are desugared during parsing. -/
inductive RegexAst where
  | eps
  | char (c : Char)
  | anyChar
  | cls (neg : Bool) (items : List (Char × Char))
  | concat (a b : RegexAst)
  | alt (a b : RegexAst)
  | star (a : RegexAst)
  | group (idx : Nat) (a : RegexAst)
deriving Repr, DecidableEq

/-- Case-insensitive character comparison (`std::regex_constants::icase`). -/
def charEqI (p d : Char) : Bool := p == d || p.toLower == d.toLower

/-- Membership of `d` in the closed range `lo..hi`. -/
def inRange (lo hi d : Char) : Bool := decide (lo ≤ d) && decide (d ≤ hi)

/-- Case-insensitive membership of `d` in one class item. -/
def itemMatches (it : Char × Char) (d : Char) : Bool :=
  inRange it.1 it.2 d || inRange it.1 it.2 d.toLower || inRange it.1 it.2 d.toUpper

/-- Case-insensitive membership of `d` in a (possibly negated) class. -/
def classMatches (neg : Bool) (items : List (Char × Char)) (d : Char) : Bool :=
  let m := items.any (fun it => itemMatches it d)
  if neg then !m else m

/-- Bounded iteration of a starred body `f`: up to `k` further iterations,
each of which must consume at least one character, mirroring the ECMAScript
rule (followed by `std::regex`) that an empty loop iteration terminates the
loop.  Iterating is preferred over stopping (greedy), and within one
iteration the body's outcomes keep their priority order.  Since every
iteration consumes, `k` = length of the remaining input never cuts the
iteration short. -/
def runStar (f : List Char → List (Nat × Caps)) : Nat → List Char → List (Nat × Caps)
  | 0, _ => [(0, [])]
  | k + 1, cs =>
      ((f cs).flatMap (fun x =>
        if 0 < x.1 ∧ x.1 ≤ cs.length then
          (runStar f k (cs.drop x.1)).map (fun y => (x.1 + y.1, y.2 ++ x.2))
        else [])) ++ [(0, [])]

/-- Backtracking matcher: all outcomes of matching `re` against a prefix of
`cs`, each as (number of characters consumed, capture bindings), in
backtracking priority order (greedy first, as in the ECMAScript grammar of
`std::regex`). -/
def run : RegexAst → List Char → List (Nat × Caps)
  | .eps, _ => [(0, [])]
  | .char _, [] => []
  | .char p, d :: _ => if charEqI p d then [(1, [])] else []
  | .anyChar, [] => []
  | .anyChar, _ :: _ => [(1, [])]
  | .cls _ _, [] => []
  | .cls neg items, d :: _ => if classMatches neg items d then [(1, [])] else []
  | .concat a b, cs =>
      (run a cs).flatMap (fun x =>
        (run b (cs.drop x.1)).map (fun y => (x.1 + y.1, y.2 ++ x.2)))
  | .alt a b, cs => run a cs ++ run b cs
  | .group i a, cs => (run a cs).map (fun x => (x.1, (i, cs.take x.1) :: x.2))
  | .star a, cs => runStar (run a) cs.length cs

/-- Unanchored search (`std::regex_search`): try each start position from the
left; at the first position where the pattern matches, return the preferred
(greedy-first) outcome. -/
def regexSearchAux (re : RegexAst) : List Char → Option (Nat × Caps)
  | [] => (run re []).head?
  | c :: rest =>
    match (run re (c :: rest)).head? with
    | some r => some r
    | none => regexSearchAux re rest

/-- `std::regex_search(subject, m, re)`: `some (n, caps)` on success, where
`n` characters starting at the match position were consumed and `caps` holds
the capture-group bindings. -/
def regexSearch (re : RegexAst) (s : List Char) : Option (Nat × Caps) :=
  regexSearchAux re s

/-- `m[i].str()`: the text bound to capture group `i`, or `""` when the group
did not participate in the match. -/
def capGet (caps : Caps) (i : Nat) : String :=
  match caps.find? (fun p => p.1 == i) with
  | some p => String.mk p.2
  | none => ""

/-- Characters that cannot stand for themselves outside a class in the
ECMAScript grammar accepted by `std::regex`. -/
def isMeta (c : Char) : Bool :=
  c == '(' || c == ')' || c == '[' || c == ']' || c == '*' || c == '+' ||
  c == '?' || c == '|' || c == '.' || c == '\\' || c == '^' || c == '$' ||
  c == '\x7b' || c == '\x7d'

/-- Items of a bracket expression `[...]`, after an optional leading `^`:
ranges `c-d`, escaped literals and plain characters, up to the closing `]`. -/
def parseClassItems : List Char → Option (List (Char × Char) × List Char)
  | ']' :: rest => some ([], rest)
  | '\\' :: c :: rest => do
      let (items, rest2) ← parseClassItems rest
      some ((c, c) :: items, rest2)
  | c :: '-' :: ']' :: rest => some ([(c, c), ('-', '-')], rest)
  | c :: '-' :: d :: rest =>
      if d == '\\' then none
      else do
        let (items, rest2) ← parseClassItems rest
        some ((c, d) :: items, rest2)
  | c :: rest => do
      let (items, rest2) ← parseClassItems rest
      some ((c, c) :: items, rest2)
  | [] => none

/-- The four productions of the pattern grammar: alternation, sequence,
quantified term, atom. -/
inductive ParseLevel where
  | alt | cat | term | atom
deriving Repr, DecidableEq

/-- Recursive-descent reading of the ECMAScript pattern subset.  Arguments:
fuel (recursion depth bound), production, next-unused capture-group number,
input; produces the syntax tree, the updated group counter and the
unconsumed input.  Capture groups are numbered by order of their opening
parenthesis, as `std::regex` does.  Constructs outside the modelled subset
are rejected. -/
def parseR : Nat → ParseLevel → Nat → List Char → Option (RegexAst × Nat × List Char)
  | 0, _, _, _ => none
  | fuel + 1, .alt, g, cs => do
    let (a, g1, cs1) ← parseR fuel .cat g cs
    match cs1 with
    | '|' :: rest => do
      let (b, g2, cs2) ← parseR fuel .alt g1 rest
      some (.alt a b, g2, cs2)
    | _ => some (a, g1, cs1)
  | fuel + 1, .cat, g, cs =>
    match cs with
    | [] => some (.eps, g, [])
    | ')' :: _ => some (.eps, g, cs)
    | '|' :: _ => some (.eps, g, cs)
    | _ => do
      let (a, g1, cs1) ← parseR fuel .term g cs
      let (b, g2, cs2) ← parseR fuel .cat g1 cs1
      some (.concat a b, g2, cs2)
  | fuel + 1, .term, g, cs => do
    let (a, g1, cs1) ← parseR fuel .atom g cs
    match cs1 with
    | '*' :: rest => some (.star a, g1, rest)
    | '+' :: rest => some (.concat a (.star a), g1, rest)
    | '?' :: rest => some (.alt a .eps, g1, rest)
    | _ => some (a, g1, cs1)
  | fuel + 1, .atom, g, cs =>
    match cs with
    | '(' :: rest => do
      let (a, g1, cs1) ← parseR fuel .alt (g + 1) rest
      match cs1 with
      | ')' :: rest2 => some (.group (g + 1) a, g1, rest2)
      | _ => none
    | '[' :: '^' :: rest => do
      let (items, rest2) ← parseClassItems rest
      some (.cls true items, g, rest2)
    | '[' :: rest => do
      let (items, rest2) ← parseClassItems rest
      some (.cls false items, g, rest2)
    | '.' :: rest => some (.anyChar, g, rest)
    | '\\' :: c :: rest => if c.isAlphanum then none else some (.char c, g, rest)
    | c :: rest => if isMeta c then none else some (.char c, g, rest)
    | [] => none

/-- `std::regex(pattern, icase)`: compile the whole pattern string, yielding
the syntax tree together with its number of capture groups (`mark_count`),
or `none` when the pattern is rejected. -/
def compileRegex (s : String) : Option (RegexAst × Nat) :=
  match parseR (4 * s.data.length + 8) .alt 0 s.data with
  | some (a, g, []) => some (a, g)
  | _ => none

/-- Characters matched by the `[_a-z0-9]` class of `NAMED_PARAM_PARSER`
under `icase`. -/
def isNameChar (c : Char) : Bool :=
  c == '_' || ('a' ≤ c && c ≤ 'z') || ('0' ≤ c && c ≤ '9') || ('A' ≤ c && c ≤ 'Z')

/-- One successful search of `NAMED_PARAM_PARSER` = `:([_a-z0-9]+)\(([^\)]*)\)`
inside the remaining template text: the whole token `m[0]`, the name `m[1]`,
the expression `m[2]` and the suffix after the match. -/
structure TokenMatch where
  tok : List Char
  name : List Char
  expr : List Char
  suffix : List Char
deriving Repr, DecidableEq

/-- Attempt the tail of `NAMED_PARAM_PARSER` right after a `:`: a nonempty
run of name characters, then `(`, a run of non-`)` characters, and `)`. -/
def tryTokenAt (rest : List Char) : Option (List Char × List Char × List Char) :=
  if (rest.takeWhile isNameChar).isEmpty then none
  else
    match rest.dropWhile isNameChar with
    | '(' :: rest2 =>
      (match rest2.dropWhile (fun c => c != ')') with
       | ')' :: suffix =>
         some (rest.takeWhile isNameChar, rest2.takeWhile (fun c => c != ')'), suffix)
       | _ => none)
    | _ => none

/-- `std::regex_search(tmp, m, NAMED_PARAM_PARSER)`: leftmost occurrence of a
named-parameter token in the template text. -/
def findToken : List Char → Option TokenMatch
  | [] => none
  | c :: rest =>
    if c == ':' then
      match tryTokenAt rest with
      | some (name, expr, suffix) =>
        some ⟨':' :: name ++ '(' :: expr ++ [')'], name, expr, suffix⟩
      | none => findToken rest
    else findToken rest

/-- The kept part of `dropWhile` never exceeds the input. -/
theorem dropWhile_length_le (p : Char → Bool) (l : List Char) :
    (l.dropWhile p).length ≤ l.length := by
  induction l with
  | nil => simp [List.dropWhile]
  | cons c rest ih =>
    by_cases h : p c
    · simp only [List.dropWhile, h]
      exact ih.trans (Nat.le_succ rest.length)
    · simp [List.dropWhile, h]

/-- A successful token attempt leaves a suffix no longer than its input. -/
theorem tryTokenAt_suffix_le (rest name expr suffix : List Char)
    (h : tryTokenAt rest = some (name, expr, suffix)) :
    suffix.length ≤ rest.length := by
  unfold tryTokenAt at h
  split at h
  · exact absurd h (by simp)
  · split at h
    next rest1 rest2 heq1 =>
      split at h
      next rest3 sfx heq2 =>
        cases h
        have h1 : ('(' :: rest2).length ≤ rest.length := by
          rw [← heq1]
          exact dropWhile_length_le isNameChar rest
        have h2 : (')' :: suffix).length ≤ rest2.length := by
          rw [← heq2]
          exact dropWhile_length_le (fun c => c != ')') rest2
        simp at h1 h2
        omega
      next => exact absurd h (by simp)
    next => exact absurd h (by simp)

/-- Progress of the rewrite loop: the suffix a found token leaves behind is
strictly shorter than the text that was scanned. -/
theorem findToken_suffix_lt (cs : List Char) (t : TokenMatch)
    (h : findToken cs = some t) : t.suffix.length < cs.length := by
  induction cs with
  | nil => simp [findToken] at h
  | cons c rest ih =>
    unfold findToken at h
    by_cases hc : c == ':'
    · rw [if_pos hc] at h
      rcases ht : tryTokenAt rest with _ | ⟨nm, ex, sfx⟩
      · rw [ht] at h
        have := ih h
        simpa using Nat.lt_succ_of_lt this
      · rw [ht] at h
        cases h
        have := tryTokenAt_suffix_le rest nm ex sfx ht
        simpa using Nat.lt_succ_of_le this
    · rw [if_neg hc] at h
      have := ih h
      simpa using Nat.lt_succ_of_lt this

/-- Replace the leftmost occurrence of `pat` in `s` by `rep`.

Modelled from the spec: `strings::replace` (declared outside the provided
source) rewrites the found token text inside the stored path in place,
turning `:name(expr)` into the capturing group `(expr)`. -/
def replaceFirst (s pat rep : List Char) : List Char :=
  match s with
  | [] => []
  | c :: rest =>
    if pat.isPrefixOf s then rep ++ s.drop pat.length
    else c :: replaceFirst rest pat rep

/-- The constructor's rewrite loop (`http_route::http_route`): scan `tmp` for
named-parameter tokens; for each one found, set the regex flag, rewrite the
token inside the stored path into a capturing group, record the parameter
name, and continue scanning the suffix after the match. -/
def rewriteLoop (tmp path : List Char) (names : List (List Char)) (isRe : Bool) :
    List Char × List (List Char) × Bool :=
  match h : findToken tmp with
  | none => (path, names, isRe)
  | some t =>
      rewriteLoop t.suffix (replaceFirst path t.tok ('(' :: t.expr ++ [')']))
        (names ++ [t.name]) true
termination_by tmp.length
decreasing_by
  exact findToken_suffix_lt tmp t h

/-- Structurally bounded twin of `rewriteLoop`, used to evaluate concrete
routes inside kernel-checked proofs; `rewriteLoopB_eq` shows the bound is
inessential whenever it exceeds the scanned text's length. -/
def rewriteLoopB : Nat → List Char → List Char → List (List Char) → Bool →
    List Char × List (List Char) × Bool
  | 0, _, path, names, isRe => (path, names, isRe)
  | k + 1, tmp, path, names, isRe =>
    match findToken tmp with
    | none => (path, names, isRe)
    | some t =>
        rewriteLoopB k t.suffix (replaceFirst path t.tok ('(' :: t.expr ++ [')']))
          (names ++ [t.name]) true

/-- With any bound larger than the scanned text, the bounded loop computes
exactly the rewrite loop: progress (`findToken_suffix_lt`) means the bound
is never reached. -/
theorem rewriteLoopB_eq (k : Nat) (tmp path : List Char) (names : List (List Char))
    (isRe : Bool) (hk : tmp.length < k) :
    rewriteLoopB k tmp path names isRe = rewriteLoop tmp path names isRe := by
  induction k generalizing tmp path names isRe with
  | zero => omega
  | succ k ih =>
    rw [rewriteLoop]
    rcases h : findToken tmp with _ | t
    · simp [rewriteLoopB, h]
    · have hlt := findToken_suffix_lt tmp t h
      simp only [rewriteLoopB, h]
      exact ih t.suffix _ _ _ (by omega)

/-- Modelled from the spec: the HTTP method constraint (GET/POST/.../ANY);
the `Method` enumeration itself lives in a header outside the provided
source. -/
inductive Method where
  | GET | POST | PUT | PATCH | DELETE | OPTIONS | ANY
deriving Repr, DecidableEq

/-- The parsed request as the routing engine sees it: method, path and the
name-to-captured-value parameter map (`std::map` keyed by name, modelled as
an association list with insert-or-overwrite updates). -/
structure http_request where
  method : Method
  path : String
  parameters : List (String × String) := []
deriving Repr, DecidableEq

/-- `parameters[name] = value`: overwrite the binding when the key exists,
otherwise add it. -/
def paramInsert : List (String × String) → String → String → List (String × String)
  | [], k, v => [(k, v)]
  | (k0, v0) :: rest, k, v =>
    if k0 == k then (k0, v) :: rest else (k0, v0) :: paramInsert rest k v

/-- The binding loop of `http_route::matches`: for `i` from 1 to the group
count, `parameters[names[i - 1]] = m[i].str()`. -/
def bindParams : List String → Nat → Caps → List (String × String) → List (String × String)
  | [], _, _, ps => ps
  | n :: rest, i, caps, ps => bindParams rest (i + 1) caps (paramInsert ps n (capGet caps i))

/-- One registered route: the regex flag, method constraint, stored
(rewritten) path, ordered parameter names, the compiled matcher with its
capture-group count when the route is a regex route, and the bound
controller/handler pair abstracted as an identifier. -/
structure http_route where
  is_re : Bool
  method : Method
  path : String
  names : List String
  re : Option (RegexAst × Nat)
  handler : Nat
deriving Repr, DecidableEq

/-- The constructor `http_route::http_route(path, controller, handler,
method)`: run the rewrite loop over the template and, when at least one
token was found, compile the rewritten path case-insensitively. -/
def http_route.make (template : String) (handler : Nat)
    (method : Method := .ANY) : http_route :=
  let r := rewriteLoop template.data template.data [] false
  { is_re := r.2.2
    method := method
    path := String.mk r.1
    names := r.2.1.map String.mk
    re := if r.2.2 then compileRegex (String.mk r.1) else none
    handler := handler }

/-- `http_route.make` with the rewrite loop replaced by its bounded twin;
used to evaluate concrete routes in kernel-checked proofs. -/
def http_route.makeB (template : String) (handler : Nat)
    (method : Method := .ANY) : http_route :=
  let r := rewriteLoopB (template.data.length + 1) template.data template.data [] false
  { is_re := r.2.2
    method := method
    path := String.mk r.1
    names := r.2.1.map String.mk
    re := if r.2.2 then compileRegex (String.mk r.1) else none
    handler := handler }

/-- The two route constructors agree. -/
theorem http_route.make_eq_makeB (template : String) (handler : Nat)
    (method : Method) :
    http_route.make template handler method =
      http_route.makeB template handler method := by
  unfold http_route.make http_route.makeB
  rw [rewriteLoopB_eq _ _ _ _ _ (Nat.lt_succ_self _)]

/-- `http_route::matches(req)`: method constraint first, then exact literal
comparison for non-regex routes, otherwise an unanchored search of the
compiled pattern; on a search whose mark count agrees with the parameter
count, bind each captured group to its name.  Returns the boolean result
together with the (possibly updated) request, since the C++ request is
passed by reference. -/
def http_route.matches (r : http_route) (req : http_request) :
    Bool × http_request :=
  if r.method != Method.ANY && req.method != r.method then
    (false, req)
  else if !r.is_re then
    (req.path == r.path, req)
  else
    match r.re with
    | none => (false, req)
    | some (ast, g) =>
      match regexSearch ast req.path.data with
      | some (_, caps) =>
        if g + 1 == r.names.length + 1 then
          (true, { req with parameters := bindParams r.names 1 caps req.parameters })
        else (false, req)
      | none => (false, req)

/-- Outcome of `http_consumer::route`: either the first matching route's
handler was invoked on the (possibly parameter-enriched) request, or the
table was exhausted and the response was filled by `not_found()`. -/
inductive RouteResult where
  | handled (r : http_route) (req : http_request)
  | notFound
deriving Repr, DecidableEq

/-- `http_consumer::route(request, response)`: walk the table in
registration order, invoke the handler of the first route whose `matches`
succeeds, and fall through to the not-found response otherwise. -/
def http_consumer.route : List http_route → http_request → RouteResult
  | [], _ => .notFound
  | r :: rs, req =>
    match r.matches req with
    | (true, req2) => .handled r req2
    | (false, req2) => http_consumer.route rs req2

/-- What the collaborators outside the routing core do for one pulled
connection: the value `tcp_stream::receive` returns, and whether
`http_request::parse` fills the request, returns `false`, or throws
`std::regex_error`. -/
inductive ParseOutcome where
  | ok (req : http_request)
  | failed
  | regexError
deriving Repr, DecidableEq

/-- One connection as `http_consumer::consume` observes it. -/
structure ConnInput where
  readResult : Int
  parse : ParseOutcome
deriving Repr, DecidableEq

/-- Externally visible effects of one `http_consumer::consume` cycle:
whether routing ran (and its outcome), whether a response was written back,
and whether an error diagnostic was logged. -/
structure ConsumeEffect where
  dispatched : Option RouteResult
  sentResponse : Bool
  loggedError : Bool
deriving Repr, DecidableEq

/-- `http_consumer::consume(client)`: a zero-or-negative read logs an error
and returns before parsing; a parse returning `false` or a caught
`std::regex_error` logs an error and returns before routing; otherwise the
request is routed and the serialized response is sent. -/
def http_consumer.consume (routes : List http_route) (c : ConnInput) :
    ConsumeEffect :=
  if c.readResult ≤ 0 then ⟨none, false, true⟩
  else
    match c.parse with
    | .failed => ⟨none, false, true⟩
    | .regexError => ⟨none, false, true⟩
    | .ok req => ⟨some (http_consumer.route routes req), true, false⟩

/-- Modelled from the spec: the worker's pull loop (declared outside the
provided source) runs one consume cycle per pulled connection, each with
fresh per-connection locals, carrying no state from one cycle to the next. -/
def http_consumer.workerRun (routes : List http_route) (conns : List ConnInput) :
    List ConsumeEffect :=
  conns.map (http_consumer.consume routes)

/-! ## Structure of `http_route::matches` and `http_consumer::route` -/

/-- `matches` either succeeds, or fails leaving the request untouched:
every `return false` path of the C++ function precedes the parameter
binding loop. -/
theorem matches_shape (r : http_route) (req : http_request) :
    (r.matches req).1 = true ∨ r.matches req = (false, req) := by
  unfold http_route.matches
  by_cases h1 : (r.method != Method.ANY && req.method != r.method) = true
  · rw [if_pos h1]
    right
    rfl
  · rw [if_neg h1]
    by_cases h2 : (!r.is_re) = true
    · rw [if_pos h2]
      rcases h3 : (req.path == r.path) with _ | _
      · right
        rfl
      · left
        rfl
    · rw [if_neg h2]
      rcases h4 : r.re with _ | ⟨ast, g⟩
      · right
        rfl
      · rcases h5 : regexSearch ast req.path.data with _ | ⟨nn, caps⟩
        · right
          simp [h5]
        · by_cases h6 : (g + 1 == r.names.length + 1) = true
          · left
            simp [h5, h6]
          · right
            simp [h5, h6]

/-- A failed `matches` leaves the request exactly as it was. -/
theorem matches_false_frame (r : http_route) (req : http_request)
    (h : (r.matches req).1 = false) : r.matches req = (false, req) := by
  rcases matches_shape r req with ht | he
  · rw [ht] at h
    cases h
  · exact he

/-- Dispatch step on a matching head route. -/
theorem route_cons_true (r : http_route) (rs : List http_route)
    (req : http_request) (h : (r.matches req).1 = true) :
    http_consumer.route (r :: rs) req = .handled r (r.matches req).2 := by
  rcases hm : r.matches req with ⟨b, q⟩
  rw [hm] at h
  subst h
  simp [http_consumer.route, hm]

/-- Dispatch step on a non-matching head route: the tail sees the original
request. -/
theorem route_cons_false (r : http_route) (rs : List http_route)
    (req : http_request) (h : (r.matches req).1 = false) :
    http_consumer.route (r :: rs) req = http_consumer.route rs req := by
  have hm := matches_false_frame r req h
  simp [http_consumer.route, hm]

/-- When some route in the table matches, dispatch invokes the first one
that does, in registration order. -/
theorem route_first_aux (req : http_request) :
    ∀ rs : List http_route, (∃ r ∈ rs, (r.matches req).1 = true) →
      ∃ k, ∃ hk : k < rs.length,
        ((rs.get ⟨k, hk⟩).matches req).1 = true ∧
        (∀ l (hl : l < k), ((rs.get ⟨l, Nat.lt_trans hl hk⟩).matches req).1 = false) ∧
        http_consumer.route rs req =
          .handled (rs.get ⟨k, hk⟩) ((rs.get ⟨k, hk⟩).matches req).2 := by
  intro rs
  induction rs with
  | nil =>
    rintro ⟨r, hr, -⟩
    cases hr
  | cons r rs ih =>
    intro hex
    by_cases hb : (r.matches req).1 = true
    · refine ⟨0, Nat.succ_pos _, ?_, ?_, ?_⟩
      · simpa using hb
      · intro l hl
        omega
      · simpa using route_cons_true r rs req hb
    · have hbf : (r.matches req).1 = false := by
        rcases hbool : (r.matches req).1 with _ | _
        · rfl
        · exact absurd hbool hb
      have hex2 : ∃ r2 ∈ rs, (r2.matches req).1 = true := by
        rcases hex with ⟨r2, hr2, hm2⟩
        rcases List.mem_cons.mp hr2 with rfl | hmem
        · exact absurd hm2 hb
        · exact ⟨r2, hmem, hm2⟩
      rcases ih hex2 with ⟨k, hk, h1, h2, h3⟩
      refine ⟨k + 1, Nat.succ_lt_succ hk, ?_, ?_, ?_⟩
      · simpa using h1
      · intro l hl
        cases l with
        | zero => simpa using hbf
        | succ l2 => simpa using h2 l2 (Nat.lt_of_succ_lt_succ hl)
      · rw [route_cons_false r rs req hbf]
        simpa using h3

/-! ## Claims -/

/-- C1: For every route table and every request, when two registered routes
both match the request, `http_consumer::route` invokes the handler of the
earlier-registered route and never the later one: table traversal is linear
in registration order and stops at the first route whose `matches()`
succeeds. -/
theorem C1_first_registered_match_wins (rs : List http_route) (req : http_request)
    (i j : Nat) (hij : i < j) (hj : j < rs.length)
    (hi : ((rs.get ⟨i, Nat.lt_trans hij hj⟩).matches req).1 = true) :
    ∃ k, ∃ hk : k < rs.length, k ≤ i ∧
      ((rs.get ⟨k, hk⟩).matches req).1 = true ∧
      (∀ l (hl : l < k), ((rs.get ⟨l, Nat.lt_trans hl hk⟩).matches req).1 = false) ∧
      http_consumer.route rs req =
        .handled (rs.get ⟨k, hk⟩) ((rs.get ⟨k, hk⟩).matches req).2 := by
  have hex : ∃ r ∈ rs, (r.matches req).1 = true :=
    ⟨rs.get ⟨i, Nat.lt_trans hij hj⟩, List.get_mem rs i _, hi⟩
  rcases route_first_aux req rs hex with ⟨k, hk, h1, h2, h3⟩
  refine ⟨k, hk, ?_, h1, h2, h3⟩
  by_contra hki
  push_neg at hki
  exact absurd hi (by simpa using h2 i hki)

/-- C1 witness: two literal routes for `/a`; with both matching, dispatch
invokes the first-registered one. -/
theorem C1_witness :
    ∃ k, ∃ hk : k <
        [http_route.make "/a" 0 .ANY, http_route.make "/a" 1 .ANY].length,
      k ≤ 0 ∧
      ((([http_route.make "/a" 0 .ANY, http_route.make "/a" 1 .ANY].get
          ⟨k, hk⟩).matches ⟨.GET, "/a", []⟩).1 = true) ∧
      (∀ l (hl : l < k),
        ((([http_route.make "/a" 0 .ANY, http_route.make "/a" 1 .ANY].get
            ⟨l, Nat.lt_trans hl hk⟩).matches ⟨.GET, "/a", []⟩).1 = false)) ∧
      http_consumer.route [http_route.make "/a" 0 .ANY, http_route.make "/a" 1 .ANY]
          ⟨.GET, "/a", []⟩ =
        .handled ([http_route.make "/a" 0 .ANY, http_route.make "/a" 1 .ANY].get ⟨k, hk⟩)
          ((([http_route.make "/a" 0 .ANY, http_route.make "/a" 1 .ANY].get
              ⟨k, hk⟩).matches ⟨.GET, "/a", []⟩).2) :=
  C1_first_registered_match_wins
    [http_route.make "/a" 0 .ANY, http_route.make "/a" 1 .ANY]
    ⟨.GET, "/a", []⟩ 0 1 (by decide) (by decide)
    (by rw [show ([http_route.make "/a" 0 .ANY, http_route.make "/a" 1 .ANY].get
          ⟨0, by decide⟩) = http_route.make "/a" 0 .ANY from rfl,
        http_route.make_eq_makeB]
        decide)

/-- C7: For every request matched against the route table, when no
registered route matches, `http_consumer::route` produces a not-found
response and invokes no handler. -/
theorem C7_no_match_not_found (rs : List http_route) (req : http_request)
    (h : ∀ r ∈ rs, (r.matches req).1 = false) :
    http_consumer.route rs req = .notFound := by
  induction rs with
  | nil => rfl
  | cons r rs ih =>
    rw [route_cons_false r rs req (h r (List.mem_cons_self r rs))]
    exact ih (fun r2 hr2 => h r2 (List.mem_cons_of_mem r hr2))

/-- C7 witness: a GET-only literal route for `/a` against a POST for `/b`
falls through to the not-found response. -/
theorem C7_witness :
    http_consumer.route [http_route.make "/a" 0 .GET] ⟨.POST, "/b", []⟩ =
      .notFound :=
  C7_no_match_not_found [http_route.make "/a" 0 .GET] ⟨.POST, "/b", []⟩
    (by intro r hr
        rcases List.mem_singleton.mp hr with rfl
        rw [http_route.make_eq_makeB]
        decide)

/-- C8: For every connection whose first read returns zero or negative
bytes, `http_consumer::consume` abandons the connection with no dispatch
performed and no bytes sent: it returns before parsing, routing, or writing
any response. -/
theorem C8_read_failure_abandons (routes : List http_route) (c : ConnInput)
    (h : c.readResult ≤ 0) :
    http_consumer.consume routes c = ⟨none, false, true⟩ := by
  unfold http_consumer.consume
  rw [if_pos h]

/-- C8 witness: a zero-byte read. -/
theorem C8_witness :
    http_consumer.consume [] ⟨0, ParseOutcome.failed⟩ = ⟨none, false, true⟩ :=
  C8_read_failure_abandons [] ⟨0, ParseOutcome.failed⟩ (by decide)

/-- C9: For every connection whose bytes fail to parse — whether `parse`
returns false or the pattern-based parser raises an exception internally —
the failure is contained in `http_consumer::consume` for that connection:
the diagnostic is logged, the connection is abandoned with no dispatch and
no response sent, and the worker processes every later connection exactly
as it would have without the failing one. -/
theorem C9_parse_failure_contained (routes : List http_route) (c : ConnInput)
    (hread : 0 < c.readResult)
    (hfail : c.parse = ParseOutcome.failed ∨ c.parse = ParseOutcome.regexError) :
    http_consumer.consume routes c = ⟨none, false, true⟩ ∧
    ∀ rest : List ConnInput,
      http_consumer.workerRun routes (c :: rest) =
        ⟨none, false, true⟩ :: http_consumer.workerRun routes rest := by
  have h1 : http_consumer.consume routes c = ⟨none, false, true⟩ := by
    unfold http_consumer.consume
    rw [if_neg (by omega)]
    rcases hfail with h | h <;> rw [h]
  exact ⟨h1, fun rest => by simp [http_consumer.workerRun, h1]⟩

/-- C9 witness: a connection whose parse throws, followed by a well-formed
one that is processed normally. -/
theorem C9_witness :
    http_consumer.consume [] ⟨1, ParseOutcome.regexError⟩ = ⟨none, false, true⟩ ∧
    http_consumer.workerRun []
        [⟨1, ParseOutcome.regexError⟩, ⟨1, ParseOutcome.ok ⟨.GET, "/a", []⟩⟩] =
      ⟨none, false, true⟩ ::
        http_consumer.workerRun [] [⟨1, ParseOutcome.ok ⟨.GET, "/a", []⟩⟩] :=
  ⟨(C9_parse_failure_contained [] ⟨1, ParseOutcome.regexError⟩ (by decide)
      (Or.inr rfl)).1,
   (C9_parse_failure_contained [] ⟨1, ParseOutcome.regexError⟩ (by decide)
      (Or.inr rfl)).2 [⟨1, ParseOutcome.ok ⟨.GET, "/a", []⟩⟩]⟩

/-- C10: Whenever `http_route::matches` returns false — method mismatch,
literal path mismatch, failed regex search, or a captured-group count
differing from the parameter-name count plus one — the request object is
left unchanged; `request.parameters` is only ever written on the success
path. -/
theorem C10_failed_match_frames_request (r : http_route) (req : http_request)
    (h : (r.matches req).1 = false) :
    (r.matches req).2 = req := by
  rw [matches_false_frame r req h]

/-- C10 witness: a method-mismatched route leaves the request as it was. -/
theorem C10_witness :
    ((http_route.make "/a" 0 .GET).matches ⟨.POST, "/a", []⟩).2 =
      (⟨.POST, "/a", []⟩ : http_request) :=
  C10_failed_match_frames_request (http_route.make "/a" 0 .GET)
    ⟨.POST, "/a", []⟩
    (by rw [http_route.make_eq_makeB]
        decide)

/-- C2: A route compiled from a template with named-parameter tokens binds
each captured group, in order, to its parameter name: `/user/:id([0-9]+)`
matches `/user/42` with `parameters = [("id", "42")]` and rejects
`/user/abc`; `/:a([a-z]+)/:b([0-9]+)` on `/foo/7` yields
`parameters = [("a", "foo"), ("b", "7")]` in declared order. -/
theorem C2_named_parameter_binding :
    (http_route.make "/user/:id([0-9]+)" 0 .ANY).matches ⟨.GET, "/user/42", []⟩ =
      (true, ⟨.GET, "/user/42", [("id", "42")]⟩) ∧
    ((http_route.make "/user/:id([0-9]+)" 0 .ANY).matches
      ⟨.GET, "/user/abc", []⟩).1 = false ∧
    (http_route.make "/:a([a-z]+)/:b([0-9]+)" 0 .ANY).matches ⟨.GET, "/foo/7", []⟩ =
      (true, ⟨.GET, "/foo/7", [("a", "foo"), ("b", "7")]⟩) := by
  rw [http_route.make_eq_makeB, http_route.make_eq_makeB]
  decide

/-- C3: For every template without a `:name(regex)` token, `matches`
succeeds exactly when the method constraint is satisfied and the request
path equals the template, compared as strings (hence case-sensitively). -/
theorem C3_literal_template_exact_match (t : String) (handler : Nat)
    (method : Method) (req : http_request) (h : findToken t.data = none) :
    ((http_route.make t handler method).matches req).1 = true ↔
      ((method = .ANY ∨ req.method = method) ∧ req.path = t) := by
  have hloop : rewriteLoop t.data t.data [] false = (t.data, [], false) := by
    rw [rewriteLoop, h]
  unfold http_route.make http_route.matches
  simp only [hloop]
  by_cases h1 : method = Method.ANY
  · subst h1
    by_cases h3 : req.path = t
    · subst h3
      simp
    · simp [h3, String.ext_iff]
  · by_cases h2 : req.method = method
    · subst h2
      by_cases h3 : req.path = t
      · subst h3
        simp [h1]
      · simp [h1, h3, String.ext_iff]
    · simp [h1, h2]

/-- C3 witness: the literal route `/static` accepts exactly its own path. -/
theorem C3_witness :
    ((http_route.make "/static" 0 .GET).matches ⟨.GET, "/static", []⟩).1 = true ↔
      ((Method.GET = .ANY ∨ Method.GET = .GET) ∧ ("/static" : String) = "/static") :=
  C3_literal_template_exact_match "/static" 0 .GET ⟨.GET, "/static", []⟩ (by decide)

/-- C5 counterexample: the template `/(x)/:a([0-9]+)` constructs
successfully — its rewritten pattern `/(x)/([0-9]+)` compiles with **two**
capture groups — yet records only the single parameter name `a`. -/
theorem C5_counterexample :
    (http_route.make "/(x)/:a([0-9]+)" 0 .ANY).re.map (fun p => p.2) = some 2 ∧
    (http_route.make "/(x)/:a([0-9]+)" 0 .ANY).names.length = 1 := by
  rw [http_route.make_eq_makeB]
  decide

/-- C5 amended: registration does not force the capture-group count of the
compiled matcher to equal the parameter-name count (literal parentheses in
the template create extra groups); instead `matches` checks the two counts
at match time, so a regex route violating the equality never matches. -/
theorem C5_amended_count_mismatch_never_matches (r : http_route)
    (req : http_request) (hre : r.is_re = true)
    (h : r.re.map (fun p => p.2) ≠ some r.names.length) :
    (r.matches req).1 = false := by
  unfold http_route.matches
  rw [hre]
  by_cases h1 : (r.method != Method.ANY && req.method != r.method) = true
  · rw [if_pos h1]
  · rw [if_neg h1]
    simp only [Bool.not_true, Bool.false_eq_true, if_false]
    rcases h4 : r.re with _ | ⟨ast, g⟩
    · rfl
    · rcases h5 : regexSearch ast req.path.data with _ | ⟨nn, caps⟩
      · simp [h5]
      · have hg : g ≠ r.names.length := by
          intro hc
          rw [h4, hc] at h
          exact h rfl
        simp [h5, hg]

/-- C5 amended witness: the counterexample route never matches, not even a
path shaped like its own rewritten pattern. -/
theorem C5_amended_witness :
    ((http_route.make "/(x)/:a([0-9]+)" 0 .ANY).matches ⟨.GET, "/x/7", []⟩).1 =
      false :=
  C5_amended_count_mismatch_never_matches
    (http_route.make "/(x)/:a([0-9]+)" 0 .ANY) ⟨.GET, "/x/7", []⟩
    (by rw [http_route.make_eq_makeB]
        decide)
    (by rw [http_route.make_eq_makeB]
        decide)

/-- One iteration of the constructor's scan: the text still to be scanned
after the next found token. -/
def stepTmp (cs : List Char) : Option (List Char) :=
  (findToken cs).map TokenMatch.suffix

/-- The scanned-text sequence of the rewrite loop: the text after `n`
iterations, or `none` once the loop has exited. -/
def tmpSeq (cs : List Char) : Nat → Option (List Char)
  | 0 => some cs
  | n + 1 => (tmpSeq cs n).bind stepTmp

/-- The scanned text shrinks by at least one character per iteration. -/
theorem tmpSeq_le (cs : List Char) :
    ∀ (n : Nat) (l : List Char), tmpSeq cs n = some l → l.length + n ≤ cs.length := by
  intro n
  induction n with
  | zero =>
    intro l h
    cases h
    omega
  | succ n ih =>
    intro l h
    rcases h0 : tmpSeq cs n with _ | l0
    · rw [tmpSeq, h0] at h
      cases h
    · rw [tmpSeq, h0] at h
      simp only [Option.some_bind, stepTmp] at h
      rcases hf : findToken l0 with _ | t
      · rw [hf] at h
        cases h
      · rw [hf] at h
        cases h
        have hp := findToken_suffix_lt l0 t hf
        have := ih l0 h0
        omega

/-- C6: For every input template text — malformed ones included — the
named-parameter rewrite loop makes progress (each found token leaves a
strictly shorter text to scan) and terminates within `length + 1`
iterations; in particular any iteration bound beyond the template length
computes the loop's result. -/
theorem C6_rewrite_loop_terminates (cs : List Char) :
    (∀ t, findToken cs = some t → t.suffix.length < cs.length) ∧
    tmpSeq cs (cs.length + 1) = none ∧
    (∀ (path : List Char) (names : List (List Char)) (isRe : Bool),
      rewriteLoopB (cs.length + 1) cs path names isRe =
        rewriteLoop cs path names isRe) := by
  refine ⟨fun t ht => findToken_suffix_lt cs t ht, ?_, ?_⟩
  · rcases h : tmpSeq cs (cs.length + 1) with _ | l
    · rfl
    · have := tmpSeq_le cs (cs.length + 1) l h
      omega
  · intro path names isRe
    exact rewriteLoopB_eq _ _ _ _ _ (Nat.lt_succ_self _)

/-! ## The search is a substring search: extending the subject preserves
matches -/

/-- A star outcome never consumes more than the input. -/
theorem runStar_le (f : List Char → List (Nat × Caps)) :
    ∀ (k : Nat) (cs : List Char) (n : Nat) (cp : Caps),
      (n, cp) ∈ runStar f k cs → n ≤ cs.length := by
  intro k
  induction k with
  | zero =>
    intro cs n cp h
    simp only [runStar, List.mem_singleton, Prod.mk.injEq] at h
    omega
  | succ k ih =>
    intro cs n cp h
    simp only [runStar] at h
    rcases List.mem_append.mp h with h1 | h1
    · rcases List.mem_flatMap.mp h1 with ⟨x, hx, hmem⟩
      by_cases hp : 0 < x.1 ∧ x.1 ≤ cs.length
      · rw [if_pos hp] at hmem
        rcases List.mem_map.mp hmem with ⟨y, hy, heq⟩
        have hyle := ih (cs.drop x.1) y.1 y.2 hy
        rw [List.length_drop] at hyle
        cases heq
        omega
      · rw [if_neg hp] at hmem
        exact absurd hmem (List.not_mem_nil _)
    · simp only [List.mem_singleton, Prod.mk.injEq] at h1
      omega

/-- A match outcome never consumes more than the input. -/
theorem run_le (re : RegexAst) :
    ∀ (cs : List Char) (n : Nat) (cp : Caps),
      (n, cp) ∈ run re cs → n ≤ cs.length := by
  induction re with
  | eps =>
    intro cs n cp h
    simp only [run, List.mem_singleton, Prod.mk.injEq] at h
    omega
  | char c =>
    intro cs n cp h
    rcases cs with _ | ⟨d, rest⟩
    · simp [run] at h
    · simp only [run] at h
      by_cases hc : charEqI c d
      · rw [if_pos hc] at h
        simp only [List.mem_singleton, Prod.mk.injEq] at h
        simp only [List.length_cons]
        omega
      · rw [if_neg hc] at h
        exact absurd h (List.not_mem_nil _)
  | anyChar =>
    intro cs n cp h
    rcases cs with _ | ⟨d, rest⟩
    · simp [run] at h
    · simp only [run, List.mem_singleton, Prod.mk.injEq] at h
      simp only [List.length_cons]
      omega
  | cls neg items =>
    intro cs n cp h
    rcases cs with _ | ⟨d, rest⟩
    · simp [run] at h
    · simp only [run] at h
      by_cases hc : classMatches neg items d
      · rw [if_pos hc] at h
        simp only [List.mem_singleton, Prod.mk.injEq] at h
        simp only [List.length_cons]
        omega
      · rw [if_neg hc] at h
        exact absurd h (List.not_mem_nil _)
  | concat a b iha ihb =>
    intro cs n cp h
    simp only [run] at h
    rcases List.mem_flatMap.mp h with ⟨x, hx, hmem⟩
    rcases List.mem_map.mp hmem with ⟨y, hy, heq⟩
    have h1 := iha cs x.1 x.2 hx
    have h2 := ihb (cs.drop x.1) y.1 y.2 hy
    rw [List.length_drop] at h2
    cases heq
    omega
  | alt a b iha ihb =>
    intro cs n cp h
    simp only [run] at h
    rcases List.mem_append.mp h with h1 | h1
    · exact iha cs n cp h1
    · exact ihb cs n cp h1
  | star a iha =>
    intro cs n cp h
    simp only [run] at h
    exact runStar_le (run a) cs.length cs n cp h
  | group i a iha =>
    intro cs n cp h
    simp only [run] at h
    rcases List.mem_map.mp h with ⟨x, hx, heq⟩
    cases heq
    exact iha cs x.1 x.2 hx

/-- Star outcomes survive raising the iteration bound. -/
theorem runStar_mono (f : List Char → List (Nat × Caps)) :
    ∀ (k k2 : Nat) (cs : List Char) (n : Nat) (cp : Caps), k ≤ k2 →
      (n, cp) ∈ runStar f k cs → (n, cp) ∈ runStar f k2 cs := by
  intro k
  induction k with
  | zero =>
    intro k2 cs n cp hk h
    simp only [runStar, List.mem_singleton] at h
    rcases k2 with _ | k2
    · simpa [runStar] using h
    · simp only [runStar]
      exact List.mem_append.mpr (Or.inr (by simpa using h))
  | succ k ih =>
    intro k2 cs n cp hk h
    rcases k2 with _ | k2
    · omega
    · simp only [runStar] at h ⊢
      rcases List.mem_append.mp h with h1 | h1
      · rcases List.mem_flatMap.mp h1 with ⟨x, hx, hmem⟩
        by_cases hp : 0 < x.1 ∧ x.1 ≤ cs.length
        · rw [if_pos hp] at hmem
          rcases List.mem_map.mp hmem with ⟨y, hy, heq⟩
          refine List.mem_append.mpr (Or.inl (List.mem_flatMap.mpr ⟨x, hx, ?_⟩))
          rw [if_pos hp]
          exact List.mem_map.mpr
            ⟨y, ih k2 (cs.drop x.1) y.1 y.2 (Nat.le_of_succ_le_succ hk) hy, heq⟩
        · rw [if_neg hp] at hmem
          exact absurd hmem (List.not_mem_nil _)
      · exact List.mem_append.mpr (Or.inr h1)

/-- Star outcomes survive appending text to the subject, provided the body's
outcomes do. -/
theorem runStar_append (f : List Char → List (Nat × Caps)) (qs : List Char)
    (Happ : ∀ (cs : List Char) (n : Nat) (cp : Caps),
      (n, cp) ∈ f cs → (n, cp) ∈ f (cs ++ qs)) :
    ∀ (k : Nat) (cs : List Char) (n : Nat) (cp : Caps),
      (n, cp) ∈ runStar f k cs → (n, cp) ∈ runStar f k (cs ++ qs) := by
  intro k
  induction k with
  | zero =>
    intro cs n cp h
    simpa [runStar] using h
  | succ k ih =>
    intro cs n cp h
    simp only [runStar] at h ⊢
    rcases List.mem_append.mp h with h1 | h1
    · rcases List.mem_flatMap.mp h1 with ⟨x, hx, hmem⟩
      by_cases hp : 0 < x.1 ∧ x.1 ≤ cs.length
      · rw [if_pos hp] at hmem
        rcases List.mem_map.mp hmem with ⟨y, hy, heq⟩
        refine List.mem_append.mpr (Or.inl (List.mem_flatMap.mpr
          ⟨x, Happ cs x.1 x.2 hx, ?_⟩))
        rw [if_pos (show 0 < x.1 ∧ x.1 ≤ (cs ++ qs).length by
          rw [List.length_append]
          omega)]
        refine List.mem_map.mpr ⟨y, ?_, heq⟩
        have hy2 := ih (cs.drop x.1) y.1 y.2 hy
        rw [← List.drop_append_of_le_length hp.2] at hy2
        exact hy2
      · rw [if_neg hp] at hmem
        exact absurd hmem (List.not_mem_nil _)
    · exact List.mem_append.mpr (Or.inr h1)

/-- Every match outcome at the start of `cs` is also a match outcome —
with the same consumption and the same captures — at the start of
`cs ++ qs`: matching never looks past what it consumes. -/
theorem run_append (qs : List Char) (re : RegexAst) :
    ∀ (cs : List Char) (n : Nat) (cp : Caps),
      (n, cp) ∈ run re cs → (n, cp) ∈ run re (cs ++ qs) := by
  induction re with
  | eps =>
    intro cs n cp h
    simpa [run] using h
  | char c =>
    intro cs n cp h
    rcases cs with _ | ⟨d, rest⟩
    · simp [run] at h
    · simp only [List.cons_append, run] at h ⊢
      exact h
  | anyChar =>
    intro cs n cp h
    rcases cs with _ | ⟨d, rest⟩
    · simp [run] at h
    · simp only [List.cons_append, run] at h ⊢
      exact h
  | cls neg items =>
    intro cs n cp h
    rcases cs with _ | ⟨d, rest⟩
    · simp [run] at h
    · simp only [List.cons_append, run] at h ⊢
      exact h
  | concat a b iha ihb =>
    intro cs n cp h
    simp only [run] at h ⊢
    rcases List.mem_flatMap.mp h with ⟨x, hx, hmem⟩
    rcases List.mem_map.mp hmem with ⟨y, hy, heq⟩
    have hxle := run_le a cs x.1 x.2 hx
    refine List.mem_flatMap.mpr ⟨x, iha cs x.1 x.2 hx, ?_⟩
    refine List.mem_map.mpr ⟨y, ?_, heq⟩
    have hy2 := ihb (cs.drop x.1) y.1 y.2 hy
    rw [← List.drop_append_of_le_length hxle] at hy2
    exact hy2
  | alt a b iha ihb =>
    intro cs n cp h
    simp only [run] at h ⊢
    rcases List.mem_append.mp h with h1 | h1
    · exact List.mem_append.mpr (Or.inl (iha cs n cp h1))
    · exact List.mem_append.mpr (Or.inr (ihb cs n cp h1))
  | star a iha =>
    intro cs n cp h
    simp only [run] at h ⊢
    have h2 := runStar_append (run a) qs iha cs.length cs n cp h
    exact runStar_mono (run a) cs.length (cs ++ qs).length (cs ++ qs) n cp
      (by rw [List.length_append]; omega) h2
  | group i a iha =>
    intro cs n cp h
    simp only [run] at h ⊢
    rcases List.mem_map.mp h with ⟨x, hx, heq⟩
    have hxle := run_le a cs x.1 x.2 hx
    refine List.mem_map.mpr ⟨x, iha cs x.1 x.2 hx, ?_⟩
    rw [List.take_append_of_le_length hxle]
    exact heq

/-- A nonempty outcome list stays nonempty when the subject is extended. -/
theorem run_ne_nil_append (re : RegexAst) (cs qs : List Char)
    (h : run re cs ≠ []) : run re (cs ++ qs) ≠ [] := by
  rcases hne : run re cs with _ | ⟨x, xs⟩
  · exact absurd hne h
  · have hx : x ∈ run re cs := by
      rw [hne]
      exact List.mem_cons_self x xs
    have h2 := run_append qs re cs x.1 x.2 hx
    intro hc
    rw [hc] at h2
    exact List.not_mem_nil _ h2

/-- A successful search stays successful with one more character in front:
the unanchored scan just starts one position later. -/
theorem regexSearchAux_cons (re : RegexAst) (z : Char) (cs : List Char)
    (h : (regexSearchAux re cs).isSome) :
    (regexSearchAux re (z :: cs)).isSome := by
  simp only [regexSearchAux]
  rcases hh : (run re (z :: cs)).head? with _ | r
  · simpa using h
  · simp

/-- A successful search stays successful when text is appended to the
subject. -/
theorem regexSearchAux_append (re : RegexAst) (qs : List Char) :
    ∀ cs : List Char, (regexSearchAux re cs).isSome →
      (regexSearchAux re (cs ++ qs)).isSome := by
  intro cs
  induction cs with
  | nil =>
    intro h
    have hne : run re [] ≠ [] := by
      simp only [regexSearchAux] at h
      intro hc
      rw [hc] at h
      simp at h
    have hne2 : run re qs ≠ [] := by
      have := run_ne_nil_append re [] qs hne
      simpa using this
    simp only [List.nil_append]
    rcases qs with _ | ⟨q, qt⟩
    · simpa using h
    · simp only [regexSearchAux]
      rcases hh : (run re (q :: qt)).head? with _ | r
      · rw [List.head?_eq_none_iff] at hh
        exact absurd hh hne2
      · simp
  | cons c rest ih =>
    intro h
    simp only [List.cons_append, regexSearchAux] at h ⊢
    rcases hh : (run re (c :: rest)).head? with _ | r
    · rw [hh] at h
      rcases hh2 : (run re (c :: (rest ++ qs))).head? with _ | r2
      · simpa using ih (by simpa using h)
      · simp
    · have hne : run re (c :: rest) ≠ [] := by
        intro hc
        rw [hc] at hh
        simp at hh
      have hne2 := run_ne_nil_append re (c :: rest) qs hne
      rw [List.cons_append] at hne2
      rcases hh2 : (run re (c :: (rest ++ qs))).head? with _ | r2
      · rw [List.head?_eq_none_iff] at hh2
        exact absurd hh2 hne2
      · simp

/-- Success of `matches` on a regex route, split into its three conditions:
method constraint, successful unanchored search, and agreement of the mark
count with the parameter-name count. -/
theorem matches_re_true_iff (r : http_route) (req : http_request)
    (hre : r.is_re = true) :
    (r.matches req).1 = true ↔
      ((r.method != Method.ANY && req.method != r.method) = false ∧
       ∃ ast g, r.re = some (ast, g) ∧ (regexSearch ast req.path.data).isSome ∧
         g = r.names.length) := by
  unfold http_route.matches
  rw [hre]
  by_cases h1 : (r.method != Method.ANY && req.method != r.method) = true
  · simp [h1]
  · have h1f : (r.method != Method.ANY && req.method != r.method) = false := by
      rcases hb : (r.method != Method.ANY && req.method != r.method) with _ | _
      · rfl
      · exact absurd hb h1
    rw [if_neg h1]
    simp only [Bool.not_true, Bool.false_eq_true, if_false, h1f, true_and]
    rcases h4 : r.re with _ | ⟨ast, g⟩
    · simp
    · rcases h5 : regexSearch ast req.path.data with _ | ⟨nn, caps⟩
      · have h5b : regexSearchAux ast req.path.data = none := h5
        simp [regexSearch, h5b]
      · have h5b : regexSearchAux ast req.path.data = some (nn, caps) := h5
        by_cases h6 : g = r.names.length
        · simp [regexSearch, h5b, h6]
        · have h6b : (g + 1 == r.names.length + 1) = false := by
            simp
            omega
          simp [regexSearch, h5b, h6b, h6]

/-- C4: For every route compiled as a regex, matching performs an unanchored
substring search within `request.path`: whenever a request matches, the
request whose path is the same text strictly enclosed between extra
characters still matches — the pattern is never required to cover the full
path. -/
theorem C4_unanchored_substring_search (r : http_route) (req : http_request)
    (hre : r.is_re = true) (hm : (r.matches req).1 = true) :
    ∃ req2 : http_request,
      req.path.data <:+: req2.path.data ∧
      req2.path.length = req.path.length + 2 ∧
      (r.matches req2).1 = true := by
  rcases (matches_re_true_iff r req hre).mp hm with ⟨hmeth, ast, g, hres, hsearch, hg⟩
  refine ⟨{ req with path := String.mk ('Z' :: (req.path.data ++ ['Q'])) }, ?_, ?_, ?_⟩
  · exact ⟨['Z'], ['Q'], by simp⟩
  · show ('Z' :: (req.path.data ++ ['Q'])).length = req.path.data.length + 2
    simp
  · rw [matches_re_true_iff _ _ hre]
    refine ⟨hmeth, ast, g, hres, ?_, hg⟩
    have h1 : (regexSearchAux ast (req.path.data ++ ['Q'])).isSome :=
      regexSearchAux_append ast ['Q'] req.path.data hsearch
    exact regexSearchAux_cons ast 'Z' (req.path.data ++ ['Q']) h1

/-- C4 witness: `/user/:id([0-9]+)` matches `/user/42`, so it also matches a
path that strictly contains that text. -/
theorem C4_witness :
    ∃ req2 : http_request,
      ("/user/42" : String).data <:+: req2.path.data ∧
      req2.path.length = ("/user/42" : String).length + 2 ∧
      ((http_route.make "/user/:id([0-9]+)" 0 .ANY).matches req2).1 = true :=
  C4_unanchored_substring_search (http_route.make "/user/:id([0-9]+)" 0 .ANY)
    ⟨.GET, "/user/42", []⟩
    (by rw [http_route.make_eq_makeB]
        decide)
    (by rw [http_route.make_eq_makeB]
        decide)

end Restd
